import Mathlib

/-!
Verification of the PageRank implementation in `pagerank.py`.

Python dictionaries are modelled as association lists kept in insertion
order (a key occurs at most once in every dictionary the program builds);
Python sets of pages are modelled as duplicate-free lists.  Real-number
arithmetic is modelled exactly over `ℚ`.  Fallible operations
(`random.choice` on an empty list, division by a zero length computed
before a loop) are modelled with `Except`; divisions that the program
only ever executes with a non-zero divisor are modelled with total `ℚ`
division.  The randomness of the sampling estimator is modelled by an
oracle supplying the index chosen at each random draw.
-/

namespace PageRank

/-! ## Definitions: the shallow embedding of pagerank.py -/

/-- Pages are identified by strings (file names in the source). -/
abbrev Page := String

/-- A link graph: Python dict mapping each page to its set of out-links. -/
abbrev Corpus := List (Page × List Page)

/-- A probability / rank mapping: Python dict from page to number. -/
abbrev Dist := List (Page × ℚ)

/-- `d.get(k)` / `d[k]` on a Python dict: value at the (first) matching key. -/
def dget {α : Type} : List (Page × α) → Page → Option α
  | [], _ => none
  | kv :: t, k => if kv.1 = k then some kv.2 else dget t k

/-- `d[k] = v` on a Python dict: replace in place if the key exists, else append. -/
def dset {α : Type} : List (Page × α) → Page → α → List (Page × α)
  | [], k, v => [(k, v)]
  | kv :: t, k, v => if kv.1 = k then (k, v) :: t else kv :: dset t k v

/-- `d.keys()` of a Python dict, in insertion order. -/
def keys {α : Type} (m : List (Page × α)) : List Page := m.map Prod.fst

/-- The value a rank/probability dict holds at `k` (`0` off its key set;
every actual read in the program happens at a present key). -/
def dgetD (m : Dist) (k : Page) : ℚ := (dget m k).getD 0

/-- `transition_model(corpus, page, damping_factor)`: translated line by line.
`corpus.get(page)` yields `none` for a missing page; Python's `if links:`
is false both for `None` and for an empty set.  In the non-empty branch the
first loop spreads `damping_factor` over the out-links, the second loop adds
`(1-damping_factor)/len(corpus)` to every corpus key (the divisions by
`len(links)` and `len(corpus)` only execute when those are non-zero). -/
def transition_model (corpus : Corpus) (page : Page) (damping_factor : ℚ) : Dist :=
  match dget corpus page with
  | some links =>
    if links.isEmpty then
      corpus.map (fun kv => (kv.1, 1 / (corpus.length : ℚ)))
    else
      let t1 := links.foldl (fun t link => dset t link (damping_factor / (links.length : ℚ))) []
      corpus.foldl (fun t kv =>
        match dget t kv.1 with
        | some v => dset t kv.1 (v + (1 - damping_factor) / (corpus.length : ℚ))
        | none => dset t kv.1 ((1 - damping_factor) / (corpus.length : ℚ))) t1
  | none =>
    corpus.map (fun kv => (kv.1, 1 / (corpus.length : ℚ)))

/-- The Link Graph invariant of the spec (§3): each page appears once as a
key, out-link sets are genuine sets, and every link target is in the corpus. -/
def wellFormed (corpus : Corpus) : Prop :=
  (keys corpus).Nodup ∧ ∀ kv ∈ corpus, kv.2.Nodup ∧ ∀ l ∈ kv.2, l ∈ keys corpus

/-- Runtime error conditions the Python program can actually raise. -/
inductive PyErr : Type
  | zeroDivisionError : PyErr
  | indexError : PyErr
deriving DecidableEq

/-- `random.choice(seq)` and `random.choices(seq, weights)[0]`: a random
element of `seq`, abstracted by the index `c` supplied by the random oracle;
on an empty sequence Python raises `IndexError`. -/
def random_choice (c : Nat) (l : List Page) : Except PyErr Page :=
  if h : l = [] then .error .indexError
  else .ok (l.get ⟨c % l.length, Nat.mod_lt _ (List.length_pos.2 h)⟩)

/-- `clicks[page] = clicks.get(page, 0) + 1`. -/
def record_click (clicks : List (Page × Nat)) (page : Page) : List (Page × Nat) :=
  dset clicks page ((dget clicks page).getD 0 + 1)

/-- The `for i in range(n)` loop of `sample_pagerank`: draw the next page
from the keys of the current transition distribution (the weighted draw is
abstracted by the oracle), record a visit, recompute the transition model. -/
def sample_loop (oracle : Nat → Nat) (corpus : Corpus) (damping_factor : ℚ) :
    Nat → Nat → Dist → List (Page × Nat) → Except PyErr (List (Page × Nat))
  | 0, _, _, clicks => .ok clicks
  | n + 1, i, transition, clicks =>
    match random_choice (oracle i) (keys transition) with
    | .error e => .error e
    | .ok page =>
      sample_loop oracle corpus damping_factor n (i + 1)
        (transition_model corpus page damping_factor) (record_click clicks page)

/-- `sample_pagerank(corpus, damping_factor, n)`: pick a uniformly random
start page, record it, then run the sampling loop and normalize the visit
counts by their total. -/
def sample_pagerank (oracle : Nat → Nat) (corpus : Corpus) (damping_factor : ℚ)
    (n : Nat) : Except PyErr Dist :=
  match random_choice (oracle 0) (keys corpus) with
  | .error e => .error e
  | .ok page =>
    match sample_loop oracle corpus damping_factor n 1
        (transition_model corpus page damping_factor) (record_click [] page) with
    | .error e => .error e
    | .ok clicks =>
      .ok (clicks.map (fun kv =>
        (kv.1, (kv.2 : ℚ) / (clicks.map (fun kv => (kv.2 : ℚ))).sum)))

/-- `assign_initial_rank(corpus, result)` (lines 134-139): gives every page
initial rank `1/num_of_pages`; on an empty corpus Python raises
`ZeroDivisionError` at `init_page_rank = 1 / num_of_pages`. -/
def assign_initial_rank (corpus : Corpus) : Except PyErr Dist :=
  if corpus.length = 0 then .error .zeroDivisionError
  else .ok (corpus.map (fun kv => (kv.1, 1 / (corpus.length : ℚ))))

/-- The zero-out-link loop of `recursive_page_rank` (lines 148-150): every
page whose out-link set is empty is rewritten — in place, in the caller's
dict — to link to every page of the corpus. -/
def normalize_corpus (corpus : Corpus) : Corpus :=
  corpus.map (fun kv => if kv.2 = [] then (kv.1, keys corpus) else kv)

/-- The inner nested loop of `update_page_rank` (lines 162-167): the set of
corpus keys whose out-link list contains `page`. -/
def inlinks (corpus : Corpus) (page : Page) : List Page :=
  keys (corpus.filter (fun kv => decide (page ∈ kv.2)))

/-- Lines 169-170: `sum_from_formula += result.get(link) / len(corpus.get(link))`.
Every `link` is a corpus key holding a (normalized, non-empty) out-link list
and a present rank, so the `Option.getD` defaults and the total `ℚ` division
never actually fire. -/
def sum_from_formula (corpus : Corpus) (result : Dist) (page : Page) : ℚ :=
  ((inlinks corpus page).map
    (fun link => dgetD result link / (((dget corpus link).getD []).length : ℚ))).sum

/-- One simultaneous round of lines 160-174: `new_result[page] =
chance_of_random_page + damping_factor * sum_from_formula`. -/
def page_rank_step (corpus : Corpus) (result : Dist)
    (damping_factor chance_of_random_page : ℚ) : Dist :=
  corpus.map (fun kv =>
    (kv.1, chance_of_random_page + damping_factor * sum_from_formula corpus result kv.1))

/-- `update_page_rank` (lines 155-185): compute `new_result` for every page
from the previous `result` alone, set `repeat` when some page moved by more
than 0.001, and recurse on `new_result` until a round moves every page by at
most 0.001.  The Python recursion has no termination measure, so `fuel`
bounds the recursion depth; `none` models a run that exceeds every bound. -/
def update_page_rank : Nat → Corpus → Dist → ℚ → ℚ → Option Dist
  | 0, _, _, _, _ => none
  | fuel + 1, corpus, result, damping_factor, chance_of_random_page =>
    if (page_rank_step corpus result damping_factor chance_of_random_page).any
        (fun kv => decide ((1 : ℚ)/1000 < |kv.2 - dgetD result kv.1|)) then
      update_page_rank fuel corpus
        (page_rank_step corpus result damping_factor chance_of_random_page)
        damping_factor chance_of_random_page
    else
      some (page_rank_step corpus result damping_factor chance_of_random_page)

/-- `recursive_page_rank` (lines 142-152): compute the teleport term, run
the zero-out-link normalization (an in-place mutation of the caller's
corpus dict), and start the update recursion.  The second component is the
corpus object as the caller sees it after the call. -/
def recursive_page_rank (fuel : Nat) (corpus : Corpus) (result : Dist)
    (damping_factor : ℚ) : Option Dist × Corpus :=
  (update_page_rank fuel (normalize_corpus corpus) result damping_factor
    ((1 - damping_factor) / (corpus.length : ℚ)),
   normalize_corpus corpus)

/-- `iterate_pagerank(corpus, damping_factor)` (lines 117-131).  The first
component is the outcome (`ZeroDivisionError` on the empty corpus, otherwise
the ranks, with `none` modelling a run that exhausts `fuel`); the second is
the corpus dict as the caller sees it afterwards. -/
def iterate_pagerank (fuel : Nat) (corpus : Corpus) (damping_factor : ℚ) :
    Except PyErr (Option Dist) × Corpus :=
  match assign_initial_rank corpus with
  | .error e => (.error e, corpus)
  | .ok result =>
    ((.ok (recursive_page_rank fuel corpus result damping_factor).1),
     (recursive_page_rank fuel corpus result damping_factor).2)

/-- The invariant of the normalized corpus used by the update recursion:
unique keys, and every out-link set non-empty, duplicate-free and contained
in the key set. -/
def normalizedInvariant (C : Corpus) : Prop :=
  (keys C).Nodup ∧ ∀ kv ∈ C, kv.2 ≠ [] ∧ kv.2.Nodup ∧ ∀ l ∈ kv.2, l ∈ keys C

/-- Modelled from the spec's words for the refinement claim about the update
rule (§4.3): `new_rank[p] = (1-damping)/n + damping * Σ over pages i that
link to p of rank[i]/outdegree(i)`, the sum ranging over the set of graph
entries whose out-link set contains `p`, with `outdegree` the size of the
entry's out-link set. -/
def spec_new_rank (corpus : Corpus) (rank : Page → ℚ) (damping : ℚ)
    (p : Page) : ℚ :=
  (1 - damping) / (corpus.length : ℚ) +
    damping * ((corpus.toFinset.filter (fun kv => p ∈ kv.2)).sum
      (fun kv => rank kv.1 / (kv.2.length : ℚ)))

/-- The states the update recursion visits: `iter_step k r` is the state
after `k` rounds starting from `r`. -/
def iter_step (C : Corpus) (df crp : ℚ) : Nat → Dist → Dist
  | 0, r => r
  | k + 1, r => iter_step C df crp k (page_rank_step C r df crp)

/-- The three-page well-formed graph `{a: {b}, b: {a}, c: {a}}` on which the
iterative estimator diverges for damping -2. -/
def cex3 : Corpus := [("a", ["b"]), ("b", ["a"]), ("c", ["a"])]

/-- The Python recursion never returns on this input: for every recursion
bound the run is still going. -/
def diverges (corpus : Corpus) (df : ℚ) : Prop :=
  ∀ fuel, (iterate_pagerank fuel corpus df).1 = .ok none

/-! ## Theorems -/

@[simp] theorem dget_nil {α : Type} (k : Page) : dget ([] : List (Page × α)) k = none := rfl

@[simp] theorem keys_nil {α : Type} : keys ([] : List (Page × α)) = [] := rfl

@[simp] theorem keys_cons {α : Type} (kv : Page × α) (t : List (Page × α)) :
    keys (kv :: t) = kv.1 :: keys t := rfl

theorem mem_keys {α : Type} (m : List (Page × α)) (q : Page) :
    q ∈ keys m ↔ ∃ v, (q, v) ∈ m := by
  unfold keys
  rw [List.mem_map]
  constructor
  · rintro ⟨⟨a, b⟩, hab, rfl⟩
    exact ⟨b, hab⟩
  · rintro ⟨v, hv⟩
    exact ⟨(q, v), hv, rfl⟩

theorem dget_dset {α : Type} (m : List (Page × α)) (k q : Page) (v : α) :
    dget (dset m k v) q = if q = k then some v else dget m q := by
  induction m with
  | nil =>
    by_cases h : q = k
    · simp [dget, dset, h]
    · have h' : ¬ k = q := fun h' => h h'.symm
      simp [dget, dset, h, h']
  | cons kv t ih =>
    obtain ⟨k1, v1⟩ := kv
    by_cases hk : k1 = k
    · subst hk
      by_cases hq : q = k1
      · subst hq; simp [dset, dget]
      · have h' : ¬ k1 = q := fun h' => hq h'.symm
        simp [dset, dget, hq, h']
    · by_cases hq : k1 = q
      · have h' : ¬ q = k := fun h => hk (hq.trans h)
        simp [dset, dget, hk, hq, h']
      · simp [dset, dget, hk, hq, ih]

theorem mem_keys_dset {α : Type} (m : List (Page × α)) (k q : Page) (v : α) :
    q ∈ keys (dset m k v) ↔ q = k ∨ q ∈ keys m := by
  induction m with
  | nil => simp [dset]
  | cons kv t ih =>
    obtain ⟨k1, v1⟩ := kv
    by_cases hk : k1 = k
    · subst hk
      have hd : dset ((k1, v1) :: t) k1 v = (k1, v) :: t := by simp [dset]
      rw [hd]
      simp only [keys_cons, List.mem_cons]
      tauto
    · have hd : dset ((k1, v1) :: t) k v = (k1, v1) :: dset t k v := by simp [dset, hk]
      rw [hd]
      simp only [keys_cons, List.mem_cons, ih]
      tauto

theorem dget_eq_none {α : Type} (m : List (Page × α)) (q : Page) :
    dget m q = none ↔ q ∉ keys m := by
  induction m with
  | nil => simp
  | cons kv t ih =>
    obtain ⟨k1, v1⟩ := kv
    by_cases h : k1 = q
    · subst h; simp [dget, List.mem_cons]
    · have h' : ¬ q = k1 := fun h' => h h'.symm
      simp [dget, h, h', List.mem_cons, ih]

theorem dget_mem {α : Type} {m : List (Page × α)} {q : Page} {v : α}
    (h : dget m q = some v) : (q, v) ∈ m := by
  induction m with
  | nil => simp [dget] at h
  | cons kv t ih =>
    by_cases hk : kv.1 = q
    · rw [dget, if_pos hk] at h
      obtain ⟨k1, v1⟩ := kv
      cases h
      cases hk
      simp
    · rw [dget, if_neg hk] at h
      exact List.mem_cons_of_mem _ (ih h)

theorem dget_isSome_of_mem_keys {α : Type} {m : List (Page × α)} {q : Page}
    (h : q ∈ keys m) : ∃ v, dget m q = some v := by
  obtain ⟨v, hv⟩ := (mem_keys m q).1 h
  induction m with
  | nil => simp at hv
  | cons kv t ih =>
    by_cases hk : kv.1 = q
    · exact ⟨kv.2, by simp [dget, hk]⟩
    · rcases List.mem_cons.1 hv with h' | h'
      · exact absurd (congrArg Prod.fst h').symm hk
      · obtain ⟨w, hw⟩ := ih ((mem_keys t q).2 ⟨v, h'⟩) h'
        exact ⟨w, by simp [dget, hk, hw]⟩

theorem dget_of_mem_nodup {α : Type} {m : List (Page × α)} {q : Page} {v : α}
    (hnd : (keys m).Nodup) (h : (q, v) ∈ m) : dget m q = some v := by
  induction m with
  | nil => simp at h
  | cons kv t ih =>
    rcases List.mem_cons.1 h with h | h
    · simp [← h, dget]
    · have hk : kv.1 ≠ q := by
        intro hk
        have : q ∈ keys t := (mem_keys t q).2 ⟨v, h⟩
        rw [← hk] at this
        exact (List.nodup_cons.1 hnd).1 this
      rw [dget, if_neg hk]
      exact ih (List.nodup_cons.1 hnd).2 h

/-- Looking a key up in a dict whose values were computed from the keys alone. -/
theorem dget_map_key {α β : Type} (m : List (Page × α)) (g : Page → β) (q : Page) :
    dget (m.map (fun kv => (kv.1, g kv.1))) q =
      if q ∈ keys m then some (g q) else none := by
  induction m with
  | nil => simp
  | cons kv t ih =>
    by_cases hk : kv.1 = q
    · simp [dget, hk, List.mem_cons]
    · have h' : ¬ q = kv.1 := fun h => hk h.symm
      simp [dget, hk, h', List.mem_cons, ih]

theorem keys_map_key {α β : Type} (m : List (Page × α)) (g : Page × α → β) :
    keys (m.map (fun kv => (kv.1, g kv))) = keys m := by
  induction m with
  | nil => rfl
  | cons kv t ih =>
    simp only [List.map_cons, keys_cons, List.cons.injEq]
    exact ⟨trivial, ih⟩

/-- Unfolding `transition_model` when the page is missing from the corpus. -/
theorem transition_model_none (corpus : Corpus) (page : Page) (df : ℚ)
    (h : dget corpus page = none) :
    transition_model corpus page df =
      corpus.map (fun kv => (kv.1, 1 / (corpus.length : ℚ))) := by
  rw [transition_model, h]

/-- Unfolding `transition_model` when the page has an empty out-link set. -/
theorem transition_model_emptylinks (corpus : Corpus) (page : Page) (df : ℚ)
    (h : dget corpus page = some []) :
    transition_model corpus page df =
      corpus.map (fun kv => (kv.1, 1 / (corpus.length : ℚ))) := by
  rw [transition_model, h]
  rfl

/-- Unfolding `transition_model` when the page has out-links. -/
theorem transition_model_links (corpus : Corpus) (page : Page) (df : ℚ)
    (links : List Page) (h : dget corpus page = some links)
    (he : links.isEmpty = false) :
    transition_model corpus page df =
      corpus.foldl (fun t kv =>
        match dget t kv.1 with
        | some v => dset t kv.1 (v + (1 - df) / (corpus.length : ℚ))
        | none => dset t kv.1 ((1 - df) / (corpus.length : ℚ)))
        (links.foldl (fun t link => dset t link (df / (links.length : ℚ))) []) := by
  rw [transition_model, h]
  simp only [he, Bool.false_eq_true, if_false]

/-- First loop of `transition_model`: each out-link ends up holding
`damping_factor / len(links)`, everything else is untouched. -/
theorem dget_first_loop (links : List Page) (c : ℚ) (t : Dist) (q : Page) :
    dget (links.foldl (fun t link => dset t link c) t) q =
      if q ∈ links then some c else dget t q := by
  induction links generalizing t with
  | nil => simp
  | cons a rest ih =>
    rw [List.foldl_cons, ih]
    by_cases hq : q ∈ rest
    · simp [hq, List.mem_cons]
    · by_cases ha : q = a
      · simp [hq, ha, dget_dset, List.mem_cons]
      · simp [hq, ha, dget_dset, List.mem_cons]

/-- Second loop of `transition_model`: every corpus key gains
`(1-damping)/n` on top of whatever the first loop put there. -/
theorem dget_second_loop (corpus : Corpus) (c : ℚ) (t : Dist) (q : Page)
    (hnd : (keys corpus).Nodup) :
    dget (corpus.foldl (fun t kv =>
        match dget t kv.1 with
        | some v => dset t kv.1 (v + c)
        | none => dset t kv.1 c) t) q =
      if q ∈ keys corpus then some ((dget t q).getD 0 + c) else dget t q := by
  induction corpus generalizing t with
  | nil => simp
  | cons kv rest ih =>
    have hnd' : (keys rest).Nodup := (List.nodup_cons.1 hnd).2
    have hknotin : kv.1 ∉ keys rest := (List.nodup_cons.1 hnd).1
    have hstep : (match dget t kv.1 with
        | some v => dset t kv.1 (v + c)
        | none => dset t kv.1 c) = dset t kv.1 ((dget t kv.1).getD 0 + c) := by
      cases h : dget t kv.1 <;> simp [h]
    rw [List.foldl_cons, hstep, ih _ hnd']
    by_cases hq : q ∈ keys rest
    · have hqk : ¬ q = kv.1 := fun h => hknotin (h ▸ hq)
      simp [hq, dget_dset, hqk, List.mem_cons]
    · by_cases hqk : q = kv.1
      · subst hqk
        simp [hq, dget_dset, List.mem_cons]
      · simp [hq, hqk, dget_dset, List.mem_cons]

/-- Claim C1: for a non-empty graph, a graph-resident page whose out-link set
is `links`, and any damping factor, `transition_model` assigns
`damping/k + (1-damping)/n` to each of the `k` out-links and `(1-damping)/n`
to every other page of the graph; if the page has no out-links it assigns the
uniform `1/n` to every page of the graph. -/
theorem transition_model_spec (corpus : Corpus) (page : Page) (df : ℚ)
    (links : List Page)
    (hnd : (keys corpus).Nodup)
    (hne : corpus ≠ [])
    (hsub : ∀ l ∈ links, l ∈ keys corpus)
    (hpage : dget corpus page = some links) :
    (links ≠ [] →
      (∀ q ∈ links, dget (transition_model corpus page df) q =
          some (df / (links.length : ℚ) + (1 - df) / (corpus.length : ℚ))) ∧
      (∀ q ∈ keys corpus, q ∉ links → dget (transition_model corpus page df) q =
          some ((1 - df) / (corpus.length : ℚ)))) ∧
    (links = [] →
      ∀ q ∈ keys corpus, dget (transition_model corpus page df) q =
          some (1 / (corpus.length : ℚ))) := by
  constructor
  · intro hlinks
    have hempty : links.isEmpty = false := by
      cases links with
      | nil => exact absurd rfl hlinks
      | cons a t => rfl
    constructor
    · intro q hq
      have hqk : q ∈ keys corpus := hsub q hq
      rw [transition_model, hpage]
      simp only [hempty, Bool.false_eq_true, if_false]
      rw [dget_second_loop _ _ _ _ hnd, if_pos hqk, dget_first_loop, if_pos hq]
      rfl
    · intro q hqk hq
      rw [transition_model, hpage]
      simp only [hempty, Bool.false_eq_true, if_false]
      rw [dget_second_loop _ _ _ _ hnd, if_pos hqk, dget_first_loop, if_neg hq]
      simp
  · intro hlinks
    subst hlinks
    intro q hqk
    rw [transition_model, hpage]
    simp only [List.isEmpty_nil, if_true]
    have h := dget_map_key corpus (fun _ => (1 : ℚ) / (corpus.length : ℚ)) q
    rw [if_pos hqk] at h
    exact h

/-- Witness for C1 on the two-page cycle `{a: {b}, b: {a}}` with damping 0.85. -/
theorem transition_model_spec_witness :
    dget (transition_model [("a", ["b"]), ("b", ["a"])] "a" (17/20)) "b" =
      some (17/20 / ((1 : ℚ)) + (1 - 17/20) / ((2 : ℚ))) ∧
    dget (transition_model [("a", ["b"]), ("b", ["a"])] "a" (17/20)) "a" =
      some ((1 - 17/20) / ((2 : ℚ))) := by
  have h := transition_model_spec [("a", ["b"]), ("b", ["a"])] "a" (17/20) ["b"]
    (by decide) (by decide) (by decide) (by decide)
  have h1 := (h.1 (by decide)).1 "b" (by decide)
  have h2 := (h.1 (by decide)).2 "a" (by decide) (by decide)
  exact ⟨by simpa using h1, by simpa using h2⟩

/-- Claim C10: calling `transition_model` with a page that is not a key of the
graph raises no error: it returns the uniform distribution `1/n` over all
graph pages, exactly the result produced for a page whose out-link set is
empty (the `corpus.get(page)` lookup treats both the same way). -/
theorem transition_model_missing_page (corpus : Corpus) (page : Page) (df : ℚ)
    (hne : corpus ≠ []) (hpage : page ∉ keys corpus) :
    transition_model corpus page df =
        corpus.map (fun kv => (kv.1, 1 / (corpus.length : ℚ))) ∧
    (∀ q ∈ keys corpus, dget (transition_model corpus page df) q =
        some (1 / (corpus.length : ℚ))) ∧
    (∀ p', dget corpus p' = some [] →
        transition_model corpus p' df = transition_model corpus page df) := by
  have hget : dget corpus page = none := (dget_eq_none corpus page).2 hpage
  have huni : transition_model corpus page df =
      corpus.map (fun kv => (kv.1, 1 / (corpus.length : ℚ))) := by
    rw [transition_model, hget]
  refine ⟨huni, ?_, ?_⟩
  · intro q hqk
    rw [huni]
    have h := dget_map_key corpus (fun _ => (1 : ℚ) / (corpus.length : ℚ)) q
    rw [if_pos hqk] at h
    exact h
  · intro p' hp'
    rw [transition_model, hp', huni]
    rfl

/-- Witness for C10: the page `"c"` is absent from `{a: {b}, b: {a}}`. -/
theorem transition_model_missing_page_witness :
    transition_model [("a", ["b"]), ("b", ["a"])] "c" (17/20) =
      [("a", 1 / ((2 : ℚ))), ("b", 1 / ((2 : ℚ)))] := by
  have h := transition_model_missing_page [("a", ["b"]), ("b", ["a"])] "c" (17/20)
    (by decide) (by decide)
  simpa using h.1

theorem record_click_sum (clicks : List (Page × Nat)) (p : Page) :
    ((record_click clicks p).map (fun kv => (kv.2 : ℚ))).sum =
      (clicks.map (fun kv => (kv.2 : ℚ))).sum + 1 := by
  induction clicks with
  | nil => simp [record_click, dset]
  | cons kv t ih =>
    by_cases hk : kv.1 = p
    · have h1 : record_click (kv :: t) p = (p, kv.2 + 1) :: t := by
        rw [record_click, dget, if_pos hk, Option.getD_some, dset, if_pos hk]
      rw [h1]
      simp only [List.map_cons, List.sum_cons]
      push_cast
      ring
    · have h1 : record_click (kv :: t) p = kv :: record_click t p := by
        rw [record_click, dget, if_neg hk, dset, if_neg hk, record_click]
      rw [h1]
      simp only [List.map_cons, List.sum_cons, ih]
      ring

theorem sample_loop_sum (oracle : Nat → Nat) (corpus : Corpus) (df : ℚ)
    (n : Nat) :
    ∀ (i : Nat) (transition : Dist) (clicks out : List (Page × Nat)),
      sample_loop oracle corpus df n i transition clicks = .ok out →
      (out.map (fun kv => (kv.2 : ℚ))).sum =
        (clicks.map (fun kv => (kv.2 : ℚ))).sum + n := by
  induction n with
  | zero =>
    intro i transition clicks out h
    simp [sample_loop] at h
    subst h
    simp
  | succ m ih =>
    intro i transition clicks out h
    rw [sample_loop] at h
    cases hc : random_choice (oracle i) (keys transition) with
    | error e => rw [hc] at h; exact absurd h (by simp)
    | ok page =>
      rw [hc] at h
      have := ih (i + 1) (transition_model corpus page df) (record_click clicks page) out h
      rw [this, record_click_sum]
      push_cast
      ring

theorem mem_keys_record_click (clicks : List (Page × Nat)) (p q : Page) :
    q ∈ keys (record_click clicks p) ↔ q = p ∨ q ∈ keys clicks :=
  mem_keys_dset clicks p q _

/-- Keys of the first loop's dict are the out-links plus whatever was there. -/
theorem mem_keys_first_loop (links : List Page) (c : ℚ) (t : Dist) (q : Page) :
    q ∈ keys (links.foldl (fun t link => dset t link c) t) ↔
      q ∈ links ∨ q ∈ keys t := by
  induction links generalizing t with
  | nil => simp
  | cons a rest ih =>
    rw [List.foldl_cons, ih, mem_keys_dset, List.mem_cons]
    tauto

/-- Keys of the second loop's dict are the corpus keys plus whatever was there. -/
theorem mem_keys_second_loop (corpus : Corpus) (c : ℚ) (t : Dist) (q : Page) :
    q ∈ keys (corpus.foldl (fun t kv =>
        match dget t kv.1 with
        | some v => dset t kv.1 (v + c)
        | none => dset t kv.1 c) t) ↔
      q ∈ keys corpus ∨ q ∈ keys t := by
  induction corpus generalizing t with
  | nil => simp
  | cons kv rest ih =>
    have hstep : (match dget t kv.1 with
        | some v => dset t kv.1 (v + c)
        | none => dset t kv.1 c) = dset t kv.1 ((dget t kv.1).getD 0 + c) := by
      cases h : dget t kv.1 <;> simp [h]
    rw [List.foldl_cons, hstep, ih, mem_keys_dset, keys_cons, List.mem_cons]
    tauto

/-- Every key of a transition distribution is a corpus page (uses the graph
invariant that out-link targets are corpus keys). -/
theorem keys_transition_model_sub (corpus : Corpus) (page : Page) (df : ℚ)
    (hwf : wellFormed corpus) :
    ∀ q ∈ keys (transition_model corpus page df), q ∈ keys corpus := by
  intro q hq
  cases hpage : dget corpus page with
  | none =>
    rw [transition_model_none corpus page df hpage] at hq
    rwa [keys_map_key] at hq
  | some links =>
    cases hemp : links.isEmpty with
    | true =>
      have hnil : links = [] := List.isEmpty_iff.1 hemp
      subst hnil
      rw [transition_model_emptylinks corpus page df hpage] at hq
      rwa [keys_map_key] at hq
    | false =>
      rw [transition_model_links corpus page df links hpage hemp] at hq
      rw [mem_keys_second_loop, mem_keys_first_loop] at hq
      rcases hq with hq | hq | hq
      · exact hq
      · exact (hwf.2 _ (dget_mem hpage)).2 q hq
      · simp at hq

theorem sample_loop_keys (oracle : Nat → Nat) (corpus : Corpus) (df : ℚ)
    (hwf : wellFormed corpus) (n : Nat) :
    ∀ (i : Nat) (transition : Dist) (clicks out : List (Page × Nat)),
      (∀ q ∈ keys transition, q ∈ keys corpus) →
      (∀ q ∈ keys clicks, q ∈ keys corpus) →
      sample_loop oracle corpus df n i transition clicks = .ok out →
      (∀ q ∈ keys out, q ∈ keys corpus) ∧ (∀ q ∈ keys clicks, q ∈ keys out) := by
  induction n with
  | zero =>
    intro i transition clicks out htrans hclicks h
    simp [sample_loop] at h
    subst h
    exact ⟨hclicks, fun q hq => hq⟩
  | succ m ih =>
    intro i transition clicks out htrans hclicks h
    rw [sample_loop] at h
    cases hc : random_choice (oracle i) (keys transition) with
    | error e => rw [hc] at h; exact absurd h (by simp)
    | ok page =>
      rw [hc] at h
      have hpage : page ∈ keys transition := by
        rw [random_choice] at hc
        split at hc
        · exact absurd hc (by simp)
        · cases hc
          apply List.get_mem
      have hclicks' : ∀ q ∈ keys (record_click clicks page), q ∈ keys corpus := by
        intro q hq
        rcases (mem_keys_record_click clicks page q).1 hq with rfl | hq
        · exact htrans q hpage
        · exact hclicks q hq
      have := ih (i + 1) (transition_model corpus page df) (record_click clicks page) out
        (keys_transition_model_sub corpus page df hwf) hclicks' h
      refine ⟨this.1, fun q hq => this.2 q ?_⟩
      exact (mem_keys_record_click clicks page q).2 (Or.inr hq)

theorem sum_map_div (l : List (Page × Nat)) (a : ℚ) :
    (l.map (fun kv => (kv.2 : ℚ) / a)).sum =
      (l.map (fun kv => (kv.2 : ℚ))).sum / a := by
  induction l with
  | nil => simp
  | cons kv t ih => simp [List.map_cons, List.sum_cons, ih, add_div]

/-- Claim C5 (amended): for a well-formed graph and any damping factor,
oracle and `n_samples ≥ 0`, a successful `sample_pagerank` run returns a
mapping whose keys are the visited pages — a non-empty subset of the graph's
pages (not necessarily all of them) — and whose values sum exactly to 1. -/
theorem sample_pagerank_keys_sum (oracle : Nat → Nat) (corpus : Corpus)
    (df : ℚ) (n : Nat) (r : Dist) (hwf : wellFormed corpus)
    (hok : sample_pagerank oracle corpus df n = .ok r) :
    keys r ≠ [] ∧ (∀ q ∈ keys r, q ∈ keys corpus) ∧
      (r.map (fun kv => kv.2)).sum = 1 := by
  rw [sample_pagerank] at hok
  split at hok
  · exact absurd hok (by simp)
  · rename_i page hc
    split at hok
    · exact absurd hok (by simp)
    · rename_i clicks hloop
      have hr : r = clicks.map (fun kv =>
          (kv.1, (kv.2 : ℚ) / (clicks.map (fun kv => (kv.2 : ℚ))).sum)) := by
        injection hok with h
        exact h.symm
      have hpagec : page ∈ keys corpus := by
        rw [random_choice] at hc
        split at hc
        · exact absurd hc (by simp)
        · cases hc
          apply List.get_mem
      have hclicks0 : ∀ q ∈ keys (record_click [] page), q ∈ keys corpus := by
        intro q hq
        rcases (mem_keys_record_click [] page q).1 hq with rfl | hq
        · exact hpagec
        · simp at hq
      have hkeys := sample_loop_keys oracle corpus df hwf n 1
        (transition_model corpus page df) (record_click [] page) clicks
        (keys_transition_model_sub corpus page df hwf) hclicks0 hloop
      have hpageclicks : page ∈ keys clicks :=
        hkeys.2 page ((mem_keys_record_click [] page page).2 (Or.inl rfl))
      have hsum : (clicks.map (fun kv => (kv.2 : ℚ))).sum = (n : ℚ) + 1 := by
        have h0 : ((record_click [] page).map (fun kv => (kv.2 : ℚ))).sum = 1 := by
          rw [record_click_sum]
          simp
        have := sample_loop_sum oracle corpus df n 1
          (transition_model corpus page df) (record_click [] page) clicks hloop
        rw [this, h0]
        ring
    

      refine ⟨?_, ?_, ?_⟩
      · intro hnil
        rw [hr, keys_map_key] at hnil
        rw [hnil] at hpageclicks
        simp at hpageclicks
      · intro q hq
        rw [hr, keys_map_key] at hq
        exact hkeys.1 q hq
      · rw [hr, List.map_map]
        have hfun : ((fun (kv : Page × ℚ) => kv.2) ∘ (fun (kv : Page × Nat) =>
            ((kv.1, (kv.2 : ℚ) / (clicks.map (fun kv => (kv.2 : ℚ))).sum) : Page × ℚ)))
            = (fun (kv : Page × Nat) =>
                (kv.2 : ℚ) / (clicks.map (fun kv => (kv.2 : ℚ))).sum) := rfl
        rw [hfun, sum_map_div, hsum]
        have hc1 : ((n : ℚ) + 1) ≠ 0 := by positivity
        exact div_self hc1

/-- Witness for the amended C5: a zero-sample run on the two-page cycle. -/
theorem sample_pagerank_keys_sum_witness :
    keys [(("a" : Page), (1 : ℚ))] ≠ [] ∧
      (∀ q ∈ keys [(("a" : Page), (1 : ℚ))],
        q ∈ keys [(("a" : Page), ["b"]), ("b", ["a"])]) ∧
      (([(("a" : Page), (1 : ℚ))]).map (fun kv => kv.2)).sum = 1 :=
  sample_pagerank_keys_sum (fun _ => 0) [("a", ["b"]), ("b", ["a"])] (17/20) 0
    [("a", 1)] (by unfold wellFormed; exact ⟨by decide, by decide⟩)
    (by norm_num [sample_pagerank, random_choice, keys, sample_loop, record_click,
      dget, dset]; simp)

/-- Counterexample to C5 as stated: on the two-page graph `{a: {b}, b: {a}}`
with zero samples, the returned mapping contains only the start page `"a"`;
the graph page `"b"` is not among its keys. -/
theorem sample_pagerank_missing_key :
    sample_pagerank (fun _ => 0) [("a", ["b"]), ("b", ["a"])] (17/20) 0 =
      .ok [("a", 1)] ∧
    "b" ∈ keys [(("a" : Page), ["b"]), ("b", ["a"])] ∧
    "b" ∉ keys [(("a" : Page), (1 : ℚ))] := by
  refine ⟨?_, by decide, by decide⟩
  norm_num [sample_pagerank, random_choice, keys, sample_loop, record_click,
    dget, dset]
  simp

theorem keys_normalize_corpus (corpus : Corpus) :
    keys (normalize_corpus corpus) = keys corpus := by
  have hfun : (fun kv => if kv.2 = [] then (kv.1, keys corpus) else kv) =
      (fun (kv : Page × List Page) =>
        (kv.1, if kv.2 = [] then keys corpus else kv.2)) := by
    funext kv
    by_cases h : kv.2 = [] <;> simp [h]
  rw [normalize_corpus, hfun, keys_map_key]

theorem length_normalize_corpus (corpus : Corpus) :
    (normalize_corpus corpus).length = corpus.length := by
  rw [normalize_corpus, List.length_map]

theorem normalize_corpus_links_ne_nil {corpus : Corpus} (hne : corpus ≠ []) :
    ∀ kv ∈ normalize_corpus corpus, kv.2 ≠ [] := by
  intro kv hkv
  obtain ⟨kv0, hkv0, rfl⟩ := List.mem_map.1 hkv
  have hkeys : keys corpus ≠ [] := by
    cases corpus with
    | nil => exact absurd rfl hne
    | cons a t => simp
  by_cases h : kv0.2 = [] <;> simp [h, hkeys]

theorem normalize_corpus_idem (corpus : Corpus) :
    normalize_corpus (normalize_corpus corpus) = normalize_corpus corpus := by
  by_cases hne : corpus = []
  · subst hne; rfl
  · have h := normalize_corpus_links_ne_nil hne
    conv_lhs => rw [normalize_corpus]
    have : ∀ kv ∈ normalize_corpus corpus,
        (if kv.2 = [] then (kv.1, keys (normalize_corpus corpus)) else kv) = id kv := by
      intro kv hkv
      simp [h kv hkv]
    rw [List.map_congr_left this, List.map_id]

theorem assign_initial_rank_ne (corpus : Corpus) (h : corpus.length ≠ 0) :
    assign_initial_rank corpus =
      .ok (corpus.map (fun kv => (kv.1, 1 / (corpus.length : ℚ)))) := by
  rw [assign_initial_rank, if_neg h]

/-- Unfolding `iterate_pagerank` on a non-empty corpus. -/
theorem iterate_pagerank_eq (fuel : Nat) (corpus : Corpus) (df : ℚ)
    (h : corpus.length ≠ 0) :
    iterate_pagerank fuel corpus df =
      (.ok (update_page_rank fuel (normalize_corpus corpus)
          (corpus.map (fun kv => (kv.1, 1 / (corpus.length : ℚ)))) df
          ((1 - df) / (corpus.length : ℚ))),
       normalize_corpus corpus) := by
  rw [iterate_pagerank, assign_initial_rank_ne corpus h]
  rfl

/-- Claim C6 (amended): on the empty graph no component rejects with an
`InvalidGraph` condition: `transition_model` silently returns the empty
distribution, `sample_pagerank` fails with `IndexError` at the initial
random choice, and the iterative estimator reaches the division by zero in
`assign_initial_rank` (`ZeroDivisionError`); the caller's graph is untouched. -/
theorem empty_graph_behavior (df : ℚ) (oracle : Nat → Nat) (n fuel : Nat)
    (page : Page) :
    transition_model [] page df = [] ∧
    sample_pagerank oracle [] df n = .error .indexError ∧
    (iterate_pagerank fuel [] df).1 = .error .zeroDivisionError ∧
    (iterate_pagerank fuel [] df).2 = [] :=
  ⟨rfl, rfl, rfl, rfl⟩

/-- Counterexample to C6 as stated: on the empty graph the iterative
estimator reaches a division by zero (`1 / num_of_pages` with zero pages)
instead of rejecting up front, and the transition model returns an empty
dict with no error condition at all. -/
theorem empty_graph_divzero_cex :
    (iterate_pagerank 5 [] (17/20)).1 = .error .zeroDivisionError ∧
    sample_pagerank (fun _ => 0) [] (17/20) 5 = .error .indexError ∧
    transition_model [] "a" (17/20) = [] :=
  ⟨rfl, rfl, rfl⟩

/-- Claim C7 (amended): `iterate_pagerank` performs no validation of the
damping factor: for any damping factor whatsoever (including 1 and negative
values) on a non-empty corpus it runs the fixed-point recurrence and returns
an `ok` outcome, never an `InvalidParameter`-style error. -/
theorem iterate_pagerank_no_damping_validation (fuel : Nat) (corpus : Corpus)
    (df : ℚ) (hne : corpus.length ≠ 0) :
    ∃ r, (iterate_pagerank fuel corpus df).1 = .ok r := by
  rw [iterate_pagerank_eq fuel corpus df hne]
  exact ⟨_, rfl⟩

/-- Witness for the amended C7 at damping 1. -/
theorem iterate_pagerank_no_damping_validation_witness :
    ∃ r, (iterate_pagerank 1 [("a", [])] 1).1 = .ok r :=
  iterate_pagerank_no_damping_validation 1 [("a", [])] 1 (by decide)

/-- Counterexample to C7 as stated: with damping = 1 (outside `[0,1)`) on
the one-page graph `{a: {}}` the iterative estimator raises nothing and
happily returns rank 1 after one round. -/
theorem iterate_pagerank_damping_one_cex :
    (iterate_pagerank 1 [("a", [])] 1).1 = .ok (some [("a", 1)]) := by
  norm_num [iterate_pagerank, assign_initial_rank, recursive_page_rank,
    normalize_corpus, update_page_rank, page_rank_step, sum_from_formula,
    inlinks, dgetD, dget, keys]

theorem map_fix {α : Type} {f : α → α} {l : List α} (h : l.map f = l) :
    ∀ x ∈ l, f x = x := by
  induction l with
  | nil => simp
  | cons a t ih =>
    rw [List.map_cons] at h
    injection h with h1 h2
    intro x hx
    rcases List.mem_cons.1 hx with rfl | hx
    · exact h1
    · exact ih h2 x hx

/-- Claim C3 (amended): `iterate_pagerank` is not side-effect-free on the
caller's graph: the zero-out-link normalization is an in-place mutation of
the caller's corpus dict, so after the call the caller holds the normalized
corpus; whenever the non-empty graph contains a page with an empty out-link
set, the graph the caller passed in has changed (and a consumer running
afterwards on the same object — e.g. the sampling estimator — would see the
rewritten out-link sets). -/
theorem iterate_pagerank_mutates (fuel : Nat) (corpus : Corpus) (df : ℚ)
    (hne : corpus.length ≠ 0) :
    (iterate_pagerank fuel corpus df).2 = normalize_corpus corpus ∧
    (∀ p, (p, ([] : List Page)) ∈ corpus →
      (iterate_pagerank fuel corpus df).2 ≠ corpus) := by
  have h2 : (iterate_pagerank fuel corpus df).2 = normalize_corpus corpus := by
    rw [iterate_pagerank_eq fuel corpus df hne]
  refine ⟨h2, ?_⟩
  intro p hp heq
  rw [h2, normalize_corpus] at heq
  have hfix := map_fix heq (p, []) hp
  simp at hfix
  have : corpus = [] := List.map_eq_nil_iff.1 hfix
  rw [this] at hne
  exact hne rfl

/-- Witness for the amended C3: a one-page graph with no out-links. -/
theorem iterate_pagerank_mutates_witness :
    (iterate_pagerank 2 [("b", [])] (1/2)).2 ≠ [("b", [])] :=
  (iterate_pagerank_mutates 2 [("b", [])] (1/2) (by decide)).2 "b" (by decide)

/-- Counterexample to C3 as stated: on the graph `{a: {}}` the caller's
corpus dict after `iterate_pagerank` is `{a: {a}}` — the empty out-link set
was rewritten in place, not on a private copy. -/
theorem iterate_pagerank_mutates_cex :
    (iterate_pagerank 1 [("a", [])] (17/20)).2 = [("a", ["a"])] ∧
    [(("a" : Page), (["a"] : List Page))] ≠ [("a", [])] := by
  exact ⟨by decide, by decide⟩

/-- Claim C8: `iterate_pagerank` is deterministic — a pure function of the
graph and damping factor, so identical inputs give identical results — and
even a second call on the same graph object after the first call has run
(i.e. on the corpus the first call mutated) returns the identical outcome
and corpus state. -/
theorem iterate_pagerank_deterministic (fuel : Nat) (corpus : Corpus) (df : ℚ) :
    iterate_pagerank fuel corpus df = iterate_pagerank fuel corpus df ∧
    iterate_pagerank fuel (iterate_pagerank fuel corpus df).2 df =
      iterate_pagerank fuel corpus df := by
  refine ⟨rfl, ?_⟩
  by_cases hne : corpus.length = 0
  · have hcorp : corpus = [] := List.length_eq_zero.1 hne
    subst hcorp
    rfl
  · rw [iterate_pagerank_eq fuel corpus df hne]
    have hlen : (normalize_corpus corpus).length ≠ 0 := by
      rw [length_normalize_corpus]; exact hne
    rw [iterate_pagerank_eq fuel (normalize_corpus corpus) df hlen]
    rw [normalize_corpus_idem, length_normalize_corpus]
    have hinit : (normalize_corpus corpus).map
        (fun kv => (kv.1, (1 : ℚ) / (corpus.length : ℚ)))
        = corpus.map (fun kv => (kv.1, (1 : ℚ) / (corpus.length : ℚ))) := by
      rw [normalize_corpus, List.map_map]
      apply List.map_congr_left
      intro kv hkv
      by_cases h : kv.2 = [] <;> simp [h]
    rw [hinit]

theorem sum_map_add {α : Type} (l : List α) (u v : α → ℚ) :
    (l.map (fun x => u x + v x)).sum = (l.map u).sum + (l.map v).sum := by
  induction l with
  | nil => simp
  | cons a t ih =>
    rw [List.map_cons, List.map_cons, List.map_cons, List.sum_cons, List.sum_cons,
      List.sum_cons, ih]
    ring

theorem sum_map_const {α : Type} (l : List α) (c : ℚ) :
    (l.map (fun _ => c)).sum = (l.length : ℚ) * c := by
  induction l with
  | nil => simp
  | cons a t ih =>
    rw [List.map_cons, List.sum_cons, ih, List.length_cons]
    push_cast
    ring

theorem sum_map_mul {α : Type} (l : List α) (c : ℚ) (f : α → ℚ) :
    (l.map (fun x => c * f x)).sum = c * (l.map f).sum := by
  induction l with
  | nil => simp
  | cons a t ih =>
    rw [List.map_cons, List.map_cons, List.sum_cons, List.sum_cons, ih]
    ring

theorem sum_swap {α β : Type} (l1 : List α) (l2 : List β) (g : α → β → ℚ) :
    (l1.map (fun a => (l2.map (fun b => g a b)).sum)).sum =
      (l2.map (fun b => (l1.map (fun a => g a b)).sum)).sum := by
  induction l1 with
  | nil => simp [sum_map_const]
  | cons a t ih =>
    rw [List.map_cons, List.sum_cons, ih, ← sum_map_add]
    rfl

theorem sum_map_ite {α : Type} (l : List α) (q : α → Bool) (f : α → ℚ) :
    ((l.filter q).map f).sum = (l.map (fun x => if q x then f x else 0)).sum := by
  induction l with
  | nil => rfl
  | cons a t ih =>
    by_cases h : q a <;> simp [List.filter_cons, h, ih]

theorem sum_map_indicator {α : Type} (l : List α) (q : α → Bool) (c : ℚ) :
    (l.map (fun x => if q x then c else 0)).sum = ((l.filter q).length : ℚ) * c := by
  induction l with
  | nil => simp
  | cons a t ih =>
    by_cases h : q a <;> simp [List.filter_cons, h, ih] <;> push_cast <;> ring

theorem length_filter_keys (C : Corpus) (ls : List Page) :
    (C.filter (fun kv => decide (kv.1 ∈ ls))).length =
      ((keys C).filter (fun k => decide (k ∈ ls))).length := by
  induction C with
  | nil => rfl
  | cons kv t ih =>
    by_cases h : kv.1 ∈ ls <;> simp [List.filter_cons, h, ih]

theorem length_filter_nodup (K ls : List Page) (hK : K.Nodup) (hls : ls.Nodup)
    (hsub : ∀ l ∈ ls, l ∈ K) :
    (K.filter (fun k => decide (k ∈ ls))).length = ls.length := by
  have h1 : (K.filter (fun k => decide (k ∈ ls))).Nodup := hK.filter _
  have h2 : (K.filter (fun k => decide (k ∈ ls))).toFinset = ls.toFinset := by
    ext a
    simp only [List.mem_toFinset, List.mem_filter, decide_eq_true_eq]
    exact ⟨fun h => h.2, fun h => ⟨hsub a h, h⟩⟩
  have h3 := List.toFinset_card_of_nodup h1
  have h4 := List.toFinset_card_of_nodup hls
  rw [← h3, h2, h4]

theorem normalizedInvariant_of (corpus : Corpus) (hwf : wellFormed corpus)
    (hne : corpus ≠ []) : normalizedInvariant (normalize_corpus corpus) := by
  refine ⟨?_, ?_⟩
  · rw [keys_normalize_corpus]
    exact hwf.1
  · intro kv hkv
    obtain ⟨kv0, hkv0, rfl⟩ := List.mem_map.1 hkv
    rw [keys_normalize_corpus]
    by_cases h : kv0.2 = []
    · have hkeys : keys corpus ≠ [] := by
        cases corpus with
        | nil => exact absurd rfl hne
        | cons a t => simp
      simp only [h, if_true, if_pos rfl]
      exact ⟨hkeys, hwf.1, fun l hl => hl⟩
    · simp only [h, if_false, if_neg h]
      exact ⟨h, (hwf.2 kv0 hkv0).1, (hwf.2 kv0 hkv0).2⟩

/-- Expanding `sum_from_formula` to an indicator sum over all corpus entries
(uses unique keys to identify `corpus.get(link)` with the entry's list). -/
theorem sum_from_formula_expand (C : Corpus) (r : Dist) (p : Page)
    (hnd : (keys C).Nodup) :
    sum_from_formula C r p =
      (C.map (fun kv => if decide (p ∈ kv.2) = true then
        dgetD r kv.1 / (kv.2.length : ℚ) else 0)).sum := by
  rw [sum_from_formula, inlinks, keys, List.map_map, sum_map_ite]
  apply congrArg
  apply List.map_congr_left
  intro kv hkv
  by_cases h : p ∈ kv.2
  · have hget : dget C kv.1 = some kv.2 := by
      apply dget_of_mem_nodup hnd
      exact (Prod.mk.eta (p := kv)) ▸ hkv
    simp [h, Function.comp, hget]
  · simp [h]

/-- The column sums of the link matrix: summing the update formula's sum
over all pages gives back the total rank (every out-link of every page
lands on exactly one corpus entry). -/
theorem sum_sum_from_formula (C : Corpus) (r : Dist)
    (hinv : normalizedInvariant C) :
    (C.map (fun kv => sum_from_formula C r kv.1)).sum =
      (C.map (fun kv => dgetD r kv.1)).sum := by
  have hexp : C.map (fun kv => sum_from_formula C r kv.1) =
      C.map (fun kv => (C.map (fun kv' => if decide (kv.1 ∈ kv'.2) = true then
        dgetD r kv'.1 / (kv'.2.length : ℚ) else 0)).sum) := by
    apply List.map_congr_left
    intro kv _
    exact sum_from_formula_expand C r kv.1 hinv.1
  rw [hexp, sum_swap]
  apply congrArg
  apply List.map_congr_left
  intro kv' hkv'
  have hterm : (C.map (fun kv => if decide (kv.1 ∈ kv'.2) = true then
      dgetD r kv'.1 / (kv'.2.length : ℚ) else 0)).sum =
      ((C.filter (fun kv => decide (kv.1 ∈ kv'.2))).length : ℚ) *
        (dgetD r kv'.1 / (kv'.2.length : ℚ)) :=
    sum_map_indicator C _ _
  rw [hterm, length_filter_keys,
    length_filter_nodup (keys C) kv'.2 hinv.1 (hinv.2 kv' hkv').2.1
      (hinv.2 kv' hkv').2.2]
  have hlen : ((kv'.2.length : ℚ)) ≠ 0 := by
    have : kv'.2.length ≠ 0 := by
      intro h
      exact (hinv.2 kv' hkv').1 (List.length_eq_zero.1 h)
    exact_mod_cast this
  field_simp

/-- Total of the ranks after one simultaneous round. -/
theorem tot_page_rank_step (C : Corpus) (r : Dist) (df crp : ℚ)
    (hinv : normalizedInvariant C) :
    ((page_rank_step C r df crp).map (fun kv => kv.2)).sum =
      (C.length : ℚ) * crp + df * (C.map (fun kv => dgetD r kv.1)).sum := by
  rw [page_rank_step, List.map_map]
  have hcomp : ((fun (kv : Page × ℚ) => kv.2) ∘ (fun (kv : Page × List Page) =>
      (kv.1, crp + df * sum_from_formula C r kv.1))) =
      (fun kv => crp + df * sum_from_formula C r kv.1) := rfl
  rw [hcomp, sum_map_add C (fun _ => crp) (fun kv => df * sum_from_formula C r kv.1),
    sum_map_const, sum_map_mul, sum_sum_from_formula C r hinv]

/-- Summing a dict's value at each of its keys gives the sum of its values. -/
theorem sum_keys_eq_tot (r : Dist) (hnd : (keys r).Nodup) :
    ((keys r).map (fun k => dgetD r k)).sum = (r.map (fun kv => kv.2)).sum := by
  induction r with
  | nil => rfl
  | cons kv t ih =>
    have h1 : dgetD (kv :: t) kv.1 = kv.2 := by simp [dgetD, dget]
    have h2 : ∀ k ∈ keys t, dgetD (kv :: t) k = dgetD t k := by
      intro k hk
      have hne : kv.1 ≠ k := fun h => (List.nodup_cons.1 hnd).1 (h ▸ hk)
      simp [dgetD, dget, hne]
    rw [keys_cons, List.map_cons, List.sum_cons, h1, List.map_cons, List.sum_cons,
      List.map_congr_left h2, ih (List.nodup_cons.1 hnd).2]

/-- Reading a state of the update recursion at every corpus key gives the
state's total, provided the state's keys are the corpus keys. -/
theorem sum_over_corpus_keys (C : Corpus) (r : Dist)
    (hnd : (keys C).Nodup) (hk : keys r = keys C) :
    (C.map (fun kv => dgetD r kv.1)).sum = (r.map (fun kv => kv.2)).sum := by
  have h1 : C.map (fun kv => dgetD r kv.1) = (keys C).map (fun k => dgetD r k) := by
    rw [keys, List.map_map]
    rfl
  rw [h1, ← hk, sum_keys_eq_tot r (hk ▸ hnd)]

/-- The update recursion preserves "values sum to 1" and "keys are the
corpus keys" whenever it returns. -/
theorem update_page_rank_tot (C : Corpus) (df crp : ℚ)
    (hinv : normalizedInvariant C) (hcrp : (C.length : ℚ) * crp = 1 - df) :
    ∀ (fuel : Nat) (r out : Dist), keys r = keys C →
      (r.map (fun kv => kv.2)).sum = 1 →
      update_page_rank fuel C r df crp = some out →
      (out.map (fun kv => kv.2)).sum = 1 ∧ keys out = keys C := by
  intro fuel
  induction fuel with
  | zero =>
    intro r out _ _ h
    exact absurd h (by simp [update_page_rank])
  | succ m ih =>
    intro r out hk ht h
    have hstepkeys : keys (page_rank_step C r df crp) = keys C :=
      keys_map_key C _
    have hsteptot : ((page_rank_step C r df crp).map (fun kv => kv.2)).sum = 1 := by
      rw [tot_page_rank_step C r df crp hinv, sum_over_corpus_keys C r hinv.1 hk,
        ht, hcrp]
      ring
    rw [update_page_rank] at h
    cases hany : (page_rank_step C r df crp).any
        (fun kv => decide ((1 : ℚ)/1000 < |kv.2 - dgetD r kv.1|)) with
    | true =>
      rw [hany] at h
      simp only [if_true] at h
      exact ih (page_rank_step C r df crp) out hstepkeys hsteptot h
    | false =>
      rw [hany] at h
      simp only [Bool.false_eq_true, if_false, Option.some.injEq] at h
      exact h ▸ ⟨hsteptot, hstepkeys⟩

/-- Claim C4: for every non-empty well-formed graph and every damping factor
in (0,1), whenever the iterative estimator returns a mapping its values sum
to 1 within 1e-6 (in the exact-rational model the sum is exactly 1, which
the proof establishes and then weakens to the stated tolerance). -/
theorem iterate_pagerank_sum_one (fuel : Nat) (corpus : Corpus) (df : ℚ)
    (r : Dist) (hwf : wellFormed corpus) (hne : corpus ≠ [])
    (h0 : 0 < df) (h1 : df < 1)
    (hok : (iterate_pagerank fuel corpus df).1 = .ok (some r)) :
    |(r.map (fun kv => kv.2)).sum - 1| ≤ 1/1000000 := by
  have hlen : corpus.length ≠ 0 := fun h => hne (List.length_eq_zero.1 h)
  rw [iterate_pagerank_eq fuel corpus df hlen] at hok
  have hok' : (Except.ok (update_page_rank fuel (normalize_corpus corpus)
      (corpus.map (fun kv => (kv.1, 1 / (corpus.length : ℚ)))) df
      ((1 - df) / (corpus.length : ℚ))) : Except PyErr (Option Dist)) =
      .ok (some r) := hok
  have hupd : update_page_rank fuel (normalize_corpus corpus)
      (corpus.map (fun kv => (kv.1, 1 / (corpus.length : ℚ)))) df
      ((1 - df) / (corpus.length : ℚ)) = some r := by
    injection hok'
  have hinv := normalizedInvariant_of corpus hwf hne
  have hnz : ((corpus.length : ℚ)) ≠ 0 := Nat.cast_ne_zero.2 hlen
  have hcrp : ((normalize_corpus corpus).length : ℚ) *
      ((1 - df) / (corpus.length : ℚ)) = 1 - df := by
    rw [length_normalize_corpus]
    field_simp
  have hkeys0 : keys (corpus.map (fun kv => (kv.1, 1 / (corpus.length : ℚ)))) =
      keys (normalize_corpus corpus) := by
    rw [keys_map_key, keys_normalize_corpus]
  have htot0 : ((corpus.map (fun kv => (kv.1, 1 / (corpus.length : ℚ)))).map
      (fun kv => kv.2)).sum = 1 := by
    rw [List.map_map]
    have hcomp : ((fun (kv : Page × ℚ) => kv.2) ∘ (fun (kv : Page × List Page) =>
        (kv.1, 1 / (corpus.length : ℚ)))) = (fun _ => 1 / (corpus.length : ℚ)) := rfl
    rw [hcomp, sum_map_const]
    field_simp
  have hfinal := update_page_rank_tot (normalize_corpus corpus) df _ hinv hcrp
    fuel _ r hkeys0 htot0 hupd
  rw [hfinal.1]
  norm_num

/-- Witness for C4 on the symmetric two-page cycle at damping 0.85. -/
theorem iterate_pagerank_sum_one_witness :
    |(([(("a" : Page), (1/2 : ℚ)), ("b", 1/2)]).map (fun kv => kv.2)).sum - 1| ≤
      1/1000000 :=
  iterate_pagerank_sum_one 1 [("a", ["b"]), ("b", ["a"])] (17/20)
    [("a", 1/2), ("b", 1/2)]
    (by unfold wellFormed; exact ⟨by decide, by decide⟩) (by decide)
    (by norm_num) (by norm_num)
    (by
      simp [iterate_pagerank, assign_initial_rank, recursive_page_rank,
        normalize_corpus, update_page_rank, page_rank_step, sum_from_formula,
        inlinks, dgetD, dget, keys, List.filter_cons]
      norm_num)

/-- The source's scan-built sum coincides with the spec's set-indexed sum. -/
theorem sum_from_formula_eq_spec (C : Corpus) (r : Dist) (p : Page)
    (hnd : (keys C).Nodup) :
    sum_from_formula C r p =
      (C.toFinset.filter (fun kv => p ∈ kv.2)).sum
        (fun kv => dgetD r kv.1 / (kv.2.length : ℚ)) := by
  have hndC : C.Nodup := List.Nodup.of_map _ hnd
  rw [sum_from_formula_expand C r p hnd, Finset.sum_filter,
    List.sum_toFinset _ hndC]
  apply congrArg
  apply List.map_congr_left
  intro kv _
  by_cases h : p ∈ kv.2 <;> simp [h]

/-- Claim C2: one call of `update_page_rank` computes, simultaneously for
every page and reading only the previous round's mapping, exactly the
spec's `new_rank` formula; it stops and returns that round's mapping
precisely when every page's absolute change is at most 0.001, and otherwise
recurses with the new mapping as the baseline. -/
theorem update_page_rank_round_spec (C : Corpus) (result : Dist)
    (df crp : ℚ) (fuel : Nat) (hnd : (keys C).Nodup)
    (hcrp : crp = (1 - df) / (C.length : ℚ)) :
    (∀ p ∈ keys C, dgetD (page_rank_step C result df crp) p =
        spec_new_rank C (dgetD result) df p) ∧
    update_page_rank (fuel + 1) C result df crp =
      (if ∀ p ∈ keys C,
          |spec_new_rank C (dgetD result) df p - dgetD result p| ≤ 1/1000
       then some (page_rank_step C result df crp)
       else update_page_rank fuel C (page_rank_step C result df crp) df crp) := by
  have hg : ∀ p ∈ keys C, crp + df * sum_from_formula C result p =
      spec_new_rank C (dgetD result) df p := by
    intro p _
    rw [spec_new_rank, ← sum_from_formula_eq_spec C result p hnd, hcrp]
  have hvals : ∀ p ∈ keys C, dgetD (page_rank_step C result df crp) p =
      spec_new_rank C (dgetD result) df p := by
    intro p hp
    rw [page_rank_step, dgetD]
    have hlook := dget_map_key C
      (fun q => crp + df * sum_from_formula C result q) p
    rw [if_pos hp] at hlook
    rw [hlook, Option.getD_some]
    exact hg p hp
  refine ⟨hvals, ?_⟩
  have hcond : ((page_rank_step C result df crp).any
      (fun kv => decide ((1 : ℚ)/1000 < |kv.2 - dgetD result kv.1|)) = false) ↔
      (∀ p ∈ keys C,
        |spec_new_rank C (dgetD result) df p - dgetD result p| ≤ 1/1000) := by
    rw [List.any_eq_false]
    constructor
    · intro h p hp
      obtain ⟨ls, hls⟩ := (mem_keys C p).1 hp
      have hmem : (p, crp + df * sum_from_formula C result p) ∈
          page_rank_step C result df crp := by
        rw [page_rank_step]
        exact List.mem_map.2 ⟨(p, ls), hls, rfl⟩
      have hnot := h _ hmem
      simp only [decide_eq_true_eq] at hnot
      rw [← hg p hp]
      exact le_of_not_lt hnot
    · intro h kv hkv
      rw [page_rank_step] at hkv
      obtain ⟨kv0, hkv0, rfl⟩ := List.mem_map.1 hkv
      have hp : kv0.1 ∈ keys C := (mem_keys C kv0.1).2 ⟨kv0.2, by
        exact (Prod.mk.eta (p := kv0)) ▸ hkv0⟩
      have hle := h kv0.1 hp
      rw [← hg kv0.1 hp] at hle
      simp only [decide_eq_true_eq]
      exact not_lt.2 hle
  by_cases hP : ∀ p ∈ keys C,
      |spec_new_rank C (dgetD result) df p - dgetD result p| ≤ 1/1000
  · have hfalse := hcond.2 hP
    rw [update_page_rank, hfalse, if_pos hP]
    simp
  · have htrue : (page_rank_step C result df crp).any
        (fun kv => decide ((1 : ℚ)/1000 < |kv.2 - dgetD result kv.1|)) = true := by
      cases hany : (page_rank_step C result df crp).any
          (fun kv => decide ((1 : ℚ)/1000 < |kv.2 - dgetD result kv.1|)) with
      | false => exact absurd (hcond.1 hany) hP
      | true => rfl
    rw [update_page_rank, htrue, if_neg hP]
    simp

/-- Witness for C2 on the two-page cycle at damping 0.85. -/
theorem update_page_rank_round_spec_witness :
    dgetD (page_rank_step [("a", ["b"]), ("b", ["a"])] [("a", 1/2), ("b", 1/2)]
        (17/20) (3/40)) "a" =
      spec_new_rank [("a", ["b"]), ("b", ["a"])]
        (dgetD [("a", 1/2), ("b", 1/2)]) (17/20) "a" :=
  (update_page_rank_round_spec [("a", ["b"]), ("b", ["a"])] [("a", 1/2), ("b", 1/2)]
    (17/20) (3/40) 0 (by decide) (by norm_num)).1 "a" (by decide)

theorem sum_map_sub {α : Type} (l : List α) (u v : α → ℚ) :
    (l.map (fun x => u x - v x)).sum = (l.map u).sum - (l.map v).sum := by
  induction l with
  | nil => simp
  | cons a t ih =>
    rw [List.map_cons, List.map_cons, List.map_cons, List.sum_cons, List.sum_cons,
      List.sum_cons, ih]
    ring

theorem abs_sum_le {α : Type} (l : List α) (f : α → ℚ) :
    |(l.map f).sum| ≤ (l.map (fun x => |f x|)).sum := by
  induction l with
  | nil => simp
  | cons a t ih =>
    rw [List.map_cons, List.map_cons, List.sum_cons, List.sum_cons]
    exact (abs_add _ _).trans (by linarith)

/-- The value a round assigns to a corpus page (needs no key uniqueness:
the round's value is a function of the key alone). -/
theorem dgetD_page_rank_step (C : Corpus) (r : Dist) (df crp : ℚ)
    (p : Page) (hp : p ∈ keys C) :
    dgetD (page_rank_step C r df crp) p = crp + df * sum_from_formula C r p := by
  rw [page_rank_step, dgetD]
  have hlook := dget_map_key C (fun q => crp + df * sum_from_formula C r q) p
  rw [if_pos hp] at hlook
  rw [hlook, Option.getD_some]

theorem inlinks_sub_keys (C : Corpus) (p : Page) :
    ∀ q ∈ inlinks C p, q ∈ keys C := by
  intro q hq
  rw [inlinks, keys] at hq
  obtain ⟨kv, hkv, rfl⟩ := List.mem_map.1 hq
  exact (mem_keys C kv.1).2 ⟨kv.2, (Prod.mk.eta (p := kv)) ▸ (List.mem_filter.1 hkv).1⟩

/-- The loop's `repeat` flag is clear iff no page moved by more than 0.001. -/
theorem update_any_eq_false_iff (C : Corpus) (r : Dist) (df crp : ℚ) :
    ((page_rank_step C r df crp).any
      (fun kv => decide ((1 : ℚ)/1000 < |kv.2 - dgetD r kv.1|)) = false) ↔
    (∀ p ∈ keys C,
      |dgetD (page_rank_step C r df crp) p - dgetD r p| ≤ 1/1000) := by
  rw [List.any_eq_false]
  constructor
  · intro h p hp
    obtain ⟨ls, hls⟩ := (mem_keys C p).1 hp
    have hmem : (p, crp + df * sum_from_formula C r p) ∈
        page_rank_step C r df crp := by
      rw [page_rank_step]
      exact List.mem_map.2 ⟨(p, ls), hls, rfl⟩
    have hnot := h _ hmem
    simp only [decide_eq_true_eq] at hnot
    rw [dgetD_page_rank_step C r df crp p hp]
    exact le_of_not_lt hnot
  · intro h kv hkv
    rw [page_rank_step] at hkv
    obtain ⟨kv0, hkv0, rfl⟩ := List.mem_map.1 hkv
    have hp : kv0.1 ∈ keys C := (mem_keys C kv0.1).2
      ⟨kv0.2, (Prod.mk.eta (p := kv0)) ▸ hkv0⟩
    have hle := h kv0.1 hp
    rw [dgetD_page_rank_step C r df crp kv0.1 hp] at hle
    simp only [decide_eq_true_eq]
    exact not_lt.2 hle

/-- One round is an L1-contraction with factor `damping` on the rank vector
(difference version), because every out-link lands on exactly one page. -/
theorem page_rank_step_contraction (C : Corpus) (r r' : Dist) (df crp : ℚ)
    (hinv : normalizedInvariant C) (hdf : 0 ≤ df) :
    (C.map (fun kv => |dgetD (page_rank_step C r df crp) kv.1 -
        dgetD (page_rank_step C r' df crp) kv.1|)).sum ≤
      df * (C.map (fun kv => |dgetD r kv.1 - dgetD r' kv.1|)).sum := by
  have hpoint : ∀ kv ∈ C, |dgetD (page_rank_step C r df crp) kv.1 -
      dgetD (page_rank_step C r' df crp) kv.1| ≤
      df * sum_from_formula C
        (C.map (fun kv => (kv.1, |dgetD r kv.1 - dgetD r' kv.1|))) kv.1 := by
    intro kv hkv
    have hp : kv.1 ∈ keys C := (mem_keys C kv.1).2
      ⟨kv.2, (Prod.mk.eta (p := kv)) ▸ hkv⟩
    rw [dgetD_page_rank_step C r df crp kv.1 hp,
      dgetD_page_rank_step C r' df crp kv.1 hp]
    have h1 : crp + df * sum_from_formula C r kv.1 -
        (crp + df * sum_from_formula C r' kv.1) =
        df * (sum_from_formula C r kv.1 - sum_from_formula C r' kv.1) := by ring
    rw [h1, abs_mul, abs_of_nonneg hdf]
    apply mul_le_mul_of_nonneg_left _ hdf
    rw [sum_from_formula, sum_from_formula, ← sum_map_sub]
    refine (abs_sum_le _ _).trans ?_
    rw [sum_from_formula]
    apply le_of_eq
    apply congrArg
    apply List.map_congr_left
    intro l hl
    have hlk : l ∈ keys C := inlinks_sub_keys C kv.1 l hl
    have hdlook := dget_map_key C
      (fun q => |dgetD r q - dgetD r' q|) l
    rw [if_pos hlk] at hdlook
    have hval : dgetD (C.map (fun kv => (kv.1, |dgetD r kv.1 - dgetD r' kv.1|))) l
        = |dgetD r l - dgetD r' l| := by
      rw [dgetD, hdlook, Option.getD_some]
    rw [div_sub_div_same, abs_div, hval,
      abs_of_nonneg (by positivity : (0 : ℚ) ≤ (((dget C l).getD []).length : ℚ))]
  calc (C.map (fun kv => |dgetD (page_rank_step C r df crp) kv.1 -
        dgetD (page_rank_step C r' df crp) kv.1|)).sum
      ≤ (C.map (fun kv => df * sum_from_formula C
          (C.map (fun kv => (kv.1, |dgetD r kv.1 - dgetD r' kv.1|))) kv.1)).sum :=
        List.sum_le_sum hpoint
    _ = df * (C.map (fun kv => sum_from_formula C
          (C.map (fun kv => (kv.1, |dgetD r kv.1 - dgetD r' kv.1|))) kv.1)).sum :=
        sum_map_mul C df _
    _ = df * (C.map (fun kv => dgetD
          (C.map (fun kv => (kv.1, |dgetD r kv.1 - dgetD r' kv.1|))) kv.1)).sum := by
        rw [sum_sum_from_formula C _ hinv]
    _ = df * (C.map (fun kv => |dgetD r kv.1 - dgetD r' kv.1|)).sum := by
        apply congrArg
        apply congrArg
        apply List.map_congr_left
        intro kv hkv
        have hp : kv.1 ∈ keys C := (mem_keys C kv.1).2
          ⟨kv.2, (Prod.mk.eta (p := kv)) ▸ hkv⟩
        have hdlook := dget_map_key C (fun q => |dgetD r q - dgetD r' q|) kv.1
        rw [if_pos hp] at hdlook
        rw [dgetD, hdlook, Option.getD_some]

theorem iter_step_succ_out (C : Corpus) (df crp : ℚ) (k : Nat) (r : Dist) :
    iter_step C df crp (k + 1) r =
      page_rank_step C (iter_step C df crp k r) df crp := by
  induction k generalizing r with
  | zero => rfl
  | succ m ih =>
    rw [iter_step, ih (page_rank_step C r df crp)]
    rfl

/-- Successive round-to-round L1 changes decay geometrically with ratio
`damping`. -/
theorem iter_step_geom (C : Corpus) (df crp : ℚ)
    (hinv : normalizedInvariant C) (hdf : 0 ≤ df) :
    ∀ (k : Nat) (r : Dist),
      (C.map (fun kv => |dgetD (iter_step C df crp (k + 1) r) kv.1 -
          dgetD (iter_step C df crp k r) kv.1|)).sum ≤
        df ^ k * (C.map (fun kv => |dgetD (page_rank_step C r df crp) kv.1 -
          dgetD r kv.1|)).sum := by
  intro k
  induction k with
  | zero =>
    intro r
    simp [iter_step]
  | succ m ih =>
    intro r
    have h1 : iter_step C df crp (m + 2) r =
        iter_step C df crp (m + 1) (page_rank_step C r df crp) := rfl
    have h2 : iter_step C df crp (m + 1) r =
        iter_step C df crp m (page_rank_step C r df crp) := rfl
    rw [h1, h2]
    refine (ih (page_rank_step C r df crp)).trans ?_
    rw [pow_succ]
    have h3 := page_rank_step_contraction C (page_rank_step C r df crp) r df crp
      hinv hdf
    calc df ^ m * (C.map (fun kv =>
          |dgetD (page_rank_step C (page_rank_step C r df crp) df crp) kv.1 -
            dgetD (page_rank_step C r df crp) kv.1|)).sum
        ≤ df ^ m * (df * (C.map (fun kv =>
            |dgetD (page_rank_step C r df crp) kv.1 - dgetD r kv.1|)).sum) :=
          mul_le_mul_of_nonneg_left h3 (pow_nonneg hdf m)
      _ = df ^ m * df * (C.map (fun kv =>
            |dgetD (page_rank_step C r df crp) kv.1 - dgetD r kv.1|)).sum := by
          ring

/-- A single page's change is at most the round's total L1 change. -/
theorem pointwise_le_total (C : Corpus) (r r' : Dist) (p : Page)
    (hp : p ∈ keys C) :
    |dgetD r p - dgetD r' p| ≤
      (C.map (fun kv => |dgetD r kv.1 - dgetD r' kv.1|)).sum := by
  obtain ⟨ls, hls⟩ := (mem_keys C p).1 hp
  have hmem : |dgetD r p - dgetD r' p| ∈
      C.map (fun kv => |dgetD r kv.1 - dgetD r' kv.1|) :=
    List.mem_map.2 ⟨(p, ls), hls, rfl⟩
  exact List.single_le_sum (fun x hx => by
    obtain ⟨kv, _, rfl⟩ := List.mem_map.1 hx
    positivity) _ hmem

/-- If the `k`-th round from `s` moves every page by at most 0.001, the
update recursion returns within `k + 1` calls. -/
theorem update_page_rank_terminates_of (C : Corpus) (df crp : ℚ) :
    ∀ (k : Nat) (s : Dist),
      (∀ p ∈ keys C, |dgetD (iter_step C df crp (k + 1) s) p -
          dgetD (iter_step C df crp k s) p| ≤ 1/1000) →
      ∃ out, update_page_rank (k + 1) C s df crp = some out := by
  intro k
  induction k with
  | zero =>
    intro s h
    have hfalse : ((page_rank_step C s df crp).any
        (fun kv => decide ((1 : ℚ)/1000 < |kv.2 - dgetD s kv.1|)) = false) := by
      rw [update_any_eq_false_iff]
      intro p hp
      have := h p hp
      simpa [iter_step] using this
    rw [update_page_rank, hfalse]
    exact ⟨page_rank_step C s df crp, if_neg Bool.false_ne_true⟩
  | succ m ih =>
    intro s h
    cases hany : ((page_rank_step C s df crp).any
        (fun kv => decide ((1 : ℚ)/1000 < |kv.2 - dgetD s kv.1|))) with
    | false =>
      rw [update_page_rank, hany]
      exact ⟨page_rank_step C s df crp, if_neg Bool.false_ne_true⟩
    | true =>
      rw [update_page_rank, hany]
      simp only [if_true]
      exact ih (page_rank_step C s df crp) (fun p hp => h p hp)

/-- For a normalized corpus and `0 ≤ damping < 1` the update recursion
terminates from any start state: some recursion depth returns a result. -/
theorem update_page_rank_terminates (C : Corpus) (df crp : ℚ) (s : Dist)
    (hinv : normalizedInvariant C) (h0 : 0 ≤ df) (h1 : df < 1) :
    ∃ fuel out, update_page_rank fuel C s df crp = some out := by
  have hD0nonneg : 0 ≤ (C.map (fun kv =>
      |dgetD (page_rank_step C s df crp) kv.1 - dgetD s kv.1|)).sum := by
    have hz : ((C.map (fun _ => (0 : ℚ))).sum : ℚ) = 0 := by
      rw [sum_map_const]; ring
    have hle : (C.map (fun _ => (0 : ℚ))).sum ≤ (C.map (fun kv =>
        |dgetD (page_rank_step C s df crp) kv.1 - dgetD s kv.1|)).sum :=
      List.sum_le_sum (fun kv _ => by positivity)
    linarith
  obtain ⟨k, hk⟩ : ∃ k : Nat, df ^ k * (C.map (fun kv =>
      |dgetD (page_rank_step C s df crp) kv.1 - dgetD s kv.1|)).sum ≤ 1/1000 := by
    by_cases hD : (C.map (fun kv =>
        |dgetD (page_rank_step C s df crp) kv.1 - dgetD s kv.1|)).sum ≤ 1/1000
    · exact ⟨0, by simpa using hD⟩
    · push_neg at hD
      have hDpos : 0 < (C.map (fun kv =>
          |dgetD (page_rank_step C s df crp) kv.1 - dgetD s kv.1|)).sum :=
        lt_trans (by norm_num) hD
      obtain ⟨n, hn⟩ := exists_pow_lt_of_lt_one
        (div_pos (by norm_num : (0 : ℚ) < 1/1000) hDpos) h1
      refine ⟨n, le_of_lt ?_⟩
      exact (lt_div_iff₀ hDpos).1 hn
  refine ⟨k + 1, ?_⟩
  apply update_page_rank_terminates_of C df crp k s
  intro p hp
  refine (pointwise_le_total C (iter_step C df crp (k + 1) s)
    (iter_step C df crp k s) p hp).trans ?_
  exact (iter_step_geom C df crp hinv h0 k s).trans hk

/-- Claim C9 (amended): for every non-empty well-formed graph and every
damping factor with `0 ≤ damping < 1`, the convergence loop of the
iterative estimator terminates — some recursion depth reaches a round in
which every page's change is at most 0.001 and returns a result, despite
the absence of a hard iteration cap.  (For negative damping, which the
claim as stated allows, the loop can run forever: see the counterexample.) -/
theorem iterate_pagerank_terminates (corpus : Corpus) (df : ℚ)
    (hwf : wellFormed corpus) (hne : corpus ≠ []) (h0 : 0 ≤ df) (h1 : df < 1) :
    ∃ fuel r, (iterate_pagerank fuel corpus df).1 = .ok (some r) := by
  have hlen : corpus.length ≠ 0 := fun h => hne (List.length_eq_zero.1 h)
  have hinv := normalizedInvariant_of corpus hwf hne
  obtain ⟨fuel, out, hout⟩ := update_page_rank_terminates
    (normalize_corpus corpus) df ((1 - df) / (corpus.length : ℚ))
    (corpus.map (fun kv => (kv.1, 1 / (corpus.length : ℚ)))) hinv h0 h1
  refine ⟨fuel, out, ?_⟩
  rw [iterate_pagerank_eq fuel corpus df hlen, hout]

/-- Witness for the amended C9 on the two-page cycle at damping 0.85. -/
theorem iterate_pagerank_terminates_witness :
    ∃ fuel r, (iterate_pagerank fuel [("a", ["b"]), ("b", ["a"])] (17/20)).1 =
      .ok (some r) :=
  iterate_pagerank_terminates [("a", ["b"]), ("b", ["a"])] (17/20)
    (by unfold wellFormed; exact ⟨by decide, by decide⟩) (by decide)
    (by norm_num) (by norm_num)

theorem cex3_step (a b c : ℚ) :
    page_rank_step cex3 [("a", a), ("b", b), ("c", c)] (-2) 1 =
      [("a", 1 + (-2) * (b + c)), ("b", 1 + (-2) * a), ("c", 1)] := by
  simp [cex3, page_rank_step, sum_from_formula, inlinks, dgetD, dget, keys,
    List.filter_cons]

theorem cex3_loop : ∀ (fuel : Nat) (x : ℚ), 1 ≤ x →
    update_page_rank fuel cex3 [("a", -x/3), ("b", x/3), ("c", 1)] (-2) 1 =
      none := by
  intro fuel
  induction fuel with
  | zero => intro x hx; rfl
  | succ m ih =>
    intro x hx
    rw [update_page_rank, cex3_step (-x/3) (x/3) 1]
    have e1 : (1 : ℚ) + (-2) * (x/3 + 1) = -(3 + 2*x)/3 := by ring
    have e2 : (1 : ℚ) + (-2) * (-x/3) = (3 + 2*x)/3 := by ring
    rw [e1, e2]
    have hany : ([("a", -(3 + 2*x)/3), ("b", (3 + 2*x)/3), ("c", (1 : ℚ))].any
        (fun kv => decide ((1 : ℚ)/1000 <
          |kv.2 - dgetD [("a", -x/3), ("b", x/3), ("c", 1)] kv.1|))) = true := by
      apply List.any_eq_true.2
      refine ⟨("b", (3 + 2*x)/3), by simp, ?_⟩
      simp only [decide_eq_true_eq]
      have hb : dgetD [("a", -x/3), ("b", x/3), ("c", (1 : ℚ))] "b" = x/3 := by
        simp [dgetD, dget]
      rw [hb]
      have e3 : (3 + 2*x)/3 - x/3 = (3 + x)/3 := by ring
      rw [e3, abs_of_nonneg (by linarith)]
      linarith
    rw [hany, if_pos rfl]
    exact ih (3 + 2*x) (by linarith)

theorem cex3_first (m : Nat) :
    update_page_rank (m + 1) cex3 [("a", 1/3), ("b", 1/3), ("c", 1/3)] (-2) 1 =
      none := by
  rw [update_page_rank, cex3_step (1/3) (1/3) (1/3)]
  have e1 : (1 : ℚ) + (-2) * (1/3 + 1/3) = -(1)/3 := by norm_num
  have e2 : (1 : ℚ) + (-2) * (1/3) = (1)/3 := by norm_num
  rw [e1, e2]
  have hany : ([("a", -(1 : ℚ)/3), ("b", (1 : ℚ)/3), ("c", (1 : ℚ))].any
      (fun kv => decide ((1 : ℚ)/1000 <
        |kv.2 - dgetD [("a", 1/3), ("b", 1/3), ("c", 1/3)] kv.1|))) = true := by
    apply List.any_eq_true.2
    refine ⟨("a", -(1 : ℚ)/3), by simp, ?_⟩
    simp only [decide_eq_true_eq]
    have ha : dgetD [("a", (1 : ℚ)/3), ("b", 1/3), ("c", 1/3)] "a" = 1/3 := by
      simp [dgetD, dget]
    rw [ha]
    have e3 : -(1 : ℚ)/3 - 1/3 = -(2/3) := by norm_num
    rw [e3, abs_neg, abs_of_nonneg (by norm_num : (0 : ℚ) ≤ 2/3)]
    norm_num
  rw [hany, if_pos rfl]
  have := cex3_loop m 1 le_rfl
  convert this using 3

/-- Counterexample to C9 as stated: damping -2 is a damping factor `< 1`
and `{a: {b}, b: {a}, c: {a}}` is a non-empty well-formed graph, yet the
update recursion never reaches a round in which every page's change is at
most 0.001 — the iterative estimator runs forever on this input. -/
theorem iterate_pagerank_divergence_cex :
    wellFormed cex3 ∧ cex3 ≠ [] ∧ (-2 : ℚ) < 1 ∧ diverges cex3 (-2) := by
  refine ⟨by unfold wellFormed; exact ⟨by decide, by decide⟩, by decide,
    by norm_num, ?_⟩
  intro fuel
  have hnorm : normalize_corpus cex3 = cex3 := by decide
  have hinit : cex3.map (fun kv => (kv.1, 1 / (cex3.length : ℚ))) =
      [("a", 1/3), ("b", 1/3), ("c", 1/3)] := by
    simp [cex3]
  have hcrp : (1 - (-2 : ℚ)) / (cex3.length : ℚ) = 1 := by
    simp [cex3]
    norm_num
  have h1 : update_page_rank fuel (normalize_corpus cex3)
      (cex3.map (fun kv => (kv.1, 1 / (cex3.length : ℚ)))) (-2)
      ((1 - (-2 : ℚ)) / (cex3.length : ℚ)) = none := by
    rw [hnorm, hinit, hcrp]
    cases fuel with
    | zero => rfl
    | succ m => exact cex3_first m
  rw [iterate_pagerank_eq fuel cex3 (-2) (by decide), h1]
